import Mathlib

/-!
Shallow embedding of the `SimplemattableComponent` (Angular Material table
component) and the `AbstractFormField` fluent builder from the
simplematcomponents repository.

Conventions of the embedding:
* JS strings that flow through the filter logic are lists of UTF-16 code
  units (`Str := List Nat`); form-control map keys are `List Char`.
* JS `Map` objects (insertion ordered, unique keys, `set` keeps the position
  of an existing key) are association lists manipulated by `assocGet`,
  `assocSet`, `assocDelete`.
* Row objects are identified by a reference token (`Nat`); their contents,
  where needed, are association lists `Cont V` from property names to cell
  values.  The cell-value type `V` is abstract; its `default` element plays
  the role of the JS `undefined` returned by a lookup of an absent property.
* Methods that throw a `TypeError` part way (e.g. reading a property of
  `undefined`) return `none` / leave the state unchanged, matching the fact
  that no component field was mutated before the throwing expression.
* External Angular Material objects are reduced to the pieces the component
  logic reads and writes: the `MatTableDataSource` is the pair of its data
  array and its filter string, the `MatSort` is the single flag
  `sortActive`; the rendering-only field `displayedColumns`, the paginator
  wiring and the sorting-data accessor are not part of the state.
-/

namespace SMC

/-- JS strings for the filter logic, as lists of code units. -/
abbrev Str := List Nat

/-- `String.prototype.trim` whitespace test (the common code points). -/
def jsIsWS (n : Nat) : Bool :=
  decide (n = 9 ∨ n = 10 ∨ n = 11 ∨ n = 12 ∨ n = 13 ∨ n = 32 ∨ n = 160)

/-- `String.prototype.toLowerCase` on one code unit (ASCII letters). -/
def jsLowerCode (n : Nat) : Nat := if 65 ≤ n ∧ n ≤ 90 then n + 32 else n

/-- `s.toLowerCase()` -/
def jsLower (s : Str) : Str := s.map jsLowerCode

/-- `s.trim()`: remove whitespace from both ends. -/
def jsTrim (s : Str) : Str :=
  ((s.dropWhile jsIsWS).reverse.dropWhile jsIsWS).reverse

/-- `s.startsWith(p)` (also used for `List Char` keys). -/
def strStarts [DecidableEq α] : List α → List α → Bool
  | _, [] => true
  | [], _ :: _ => false
  | a :: s, b :: p => if a = b then strStarts s p else false

/-- `s.indexOf(pat) >= 0`: `pat` occurs as a contiguous substring of `s`. -/
def jsContainsSub [DecidableEq α] : List α → List α → Bool
  | [], pat => strStarts [] pat
  | s@(_ :: t), pat => strStarts s pat || jsContainsSub t pat

/-- Form-control map keys (`<rowIndex>_<colIndex>`). -/
abbrev Key := List Char

/-- The id `rowIndex + '_' + colIndex` used for the form-control map. -/
def natKey (r c : Nat) : Key := (Nat.repr r).toList ++ '_' :: (Nat.repr c).toList

/-- `key.split('_')[1]`: the segment between the first separator and the
next one; `none` when the separator does not occur (index 1 is undefined). -/
def afterFirst [DecidableEq α] (sep : α) : List α → Option (List α)
  | [] => none
  | a :: t => if a = sep then some (t.takeWhile (fun b => !(b == sep))) else afterFirst sep t

/-- JS unary plus on a string of digits: `+'' = 0`, digit strings parse,
anything else is `NaN` (modelled as `none`). -/
def jsToNum (s : List Char) : Option Nat :=
  if s = [] then some 0
  else if s.all (·.isDigit) then
    some (s.foldl (fun a c => a * 10 + (c.toNat - 48)) 0)
  else none

/-- `Map.prototype.get` on an insertion-ordered association list. -/
def assocGet [DecidableEq κ] : List (κ × α) → κ → Option α
  | [], _ => none
  | (k', v') :: t, k => if k' = k then some v' else assocGet t k

/-- `Map.prototype.set`: replace in place if the key exists, else append. -/
def assocSet [DecidableEq κ] : List (κ × α) → κ → α → List (κ × α)
  | [], k, v => [(k, v)]
  | (k', v') :: t, k, v => if k' = k then (k', v) :: t else (k', v') :: assocSet t k v

/-- `Map.prototype.delete`: remove the entry with the given key. -/
def assocDelete [DecidableEq κ] : List (κ × α) → κ → List (κ × α)
  | [], _ => []
  | (k', v') :: t, k => if k' = k then t else (k', v') :: assocDelete t k

/-- The keys of an association list. -/
def keysOf (m : List (κ × α)) : List κ := m.map (·.1)

/-- `Array.prototype.indexOf`: first index of `x`, `-1` when absent. -/
def jsIndexOf [DecidableEq α] : List α → α → Int
  | [], _ => -1
  | a :: t, x =>
    if a = x then 0
    else
      let r := jsIndexOf t x
      if r < 0 then -1 else r + 1

/-- `arr.splice(i, 1)` (result array): JS clamps a negative start index to
`length + i` (but not below 0) and a too-large one to `length`. -/
def jsSpliceRemove1 (l : List α) (i : Int) : List α :=
  let len : Int := l.length
  let start : Nat := if i < 0 then (max (len + i) 0).toNat else (min i len).toNat
  l.take start ++ l.drop (start + 1)

/-- Modelled from the spec: the per-row status class `DataStatus`
(`data-status.model.ts` is not among the given sources).  The spec says the
component "tracks per-row edit/add/delete status"; the component reads and
writes exactly two boolean flags, `editing` and `added`, and a
`new DataStatus()` starts with both unset (falsy). -/
structure DataStatus where
  editing : Bool := false
  added : Bool := false
deriving DecidableEq

/-- An Angular `AbstractControl` reduced to what the component reads:
its current value and its validity flag. -/
structure Control (V : Type) where
  value : V
  valid : Bool
deriving DecidableEq

/-- Row contents: property name to cell value, insertion ordered. -/
abbrev Cont (V : Type) := List (String × V)

/-- `element[prop]`: an absent property reads as `undefined`, which is the
`default` element of the abstract value type. -/
def jsGet [Inhabited V] (c : Cont V) (k : String) : V := (assocGet c k).getD default

/-- The form-field part of a column descriptor: only the `init` and `apply`
hooks are read by the component logic under scrutiny. -/
structure FormField (V : Type) where
  init : Option (V → Cont V → V) := none
  apply : Option (V → V → Cont V → V) := none

/-- A structured view of a `TableColumn`: the fields the component's
data-path logic reads.  (The dirty-checking of `ngDoCheck` instead sees
columns as raw JS records, `ColObj` below.) -/
structure TableColumn (V : Type) where
  property : String
  visible : Bool := true
  transform : Option (V → Cont V → Str) := none
  formField : Option (FormField V) := none

/-- `getDisplayedCols`: the visible columns. -/
def getDisplayedCols (cols : List (TableColumn V)) : List (TableColumn V) :=
  cols.filter (·.visible)

/-- `getStringRepresentation`: `tcol.transform ? tcol.transform(element[tcol.property], element) : element[tcol.property].toString()`.
`vToStr` is the ambient `toString` of cell values. -/
def getStringRepresentation [Inhabited V] (vToStr : V → Str)
    (tcol : TableColumn V) (cont : Cont V) : Str :=
  match tcol.transform with
  | some f => f (jsGet cont tcol.property) cont
  | none => vToStr (jsGet cont tcol.property)

/-- A column as the dirty-checker sees it: a JS record of own enumerable
properties, each property value reduced to an identity token (`!==` on two
JS values is inequality of tokens). -/
abbrev ColObj := List (String × Nat)

/-- `col[key]` on a raw column record; `none` is `undefined`. -/
def colGet (c : ColObj) (k : String) : Option Nat := assocGet c k

/-- The inner loop of `checkForDifferences`: `for (const key in col) if (col[key] !== this.columns[i][key]) return true`
where `col` is the saved shallow copy. -/
def colDiffers (old nw : ColObj) : Bool :=
  old.any (fun kv => !(colGet nw kv.1 == some kv.2))

/-- `checkForDifferences`: length mismatch, or some saved copy has a
property whose value differs from the current column at the same index. -/
def checkForDifferences (oldC newC : List ColObj) : Bool :=
  if oldC.length ≠ newC.length then true
  else (oldC.zip newC).any (fun p => colDiffers p.1 p.2)

/-- The column-difference notion as the specification claim words it
(a refinement candidate, to be compared with `checkForDifferences`): the
arrays have different lengths, or some CURRENT column at index `i` has a
property whose value is not equal to the saved copy's value for that
property. -/
def claimColumnsDiffer (oldC newC : List ColObj) : Prop :=
  oldC.length ≠ newC.length
  ∨ ∃ i, i < newC.length ∧ ∃ kv ∈ newC.getD i [],
      colGet (oldC.getD i []) kv.1 ≠ some kv.2

/-- The column-difference notion the code implements, as a proposition:
the arrays have different lengths, or some property of a SAVED COPY at
index `i` has a value different from the current column's value for that
property (a key present only on the current column is never compared). -/
def codeColumnsDiffer (oldC newC : List ColObj) : Prop :=
  oldC.length ≠ newC.length
  ∨ ∃ i, i < oldC.length ∧ ∃ kv ∈ oldC.getD i [],
      colGet (newC.getD i []) kv.1 ≠ some kv.2

/-- The component state: the fields of `SimplemattableComponent` that the
logic under scrutiny reads and writes.  `data` holds reference tokens of
the row objects; `dataSource` is `none` until `recreateDataSource` first
runs, then the pair of its data array and its filter string. -/
structure SMTState (V : Type) where
  data : List Nat := []
  dataStatus : List (Nat × DataStatus) := []
  formControls : List (Key × Control V) := []
  currentlyAdding : Bool := false
  oldColumns : List ColObj := []
  dataSource : Option (List Nat × Str) := none
  sortActive : Bool := false
deriving DecidableEq

/-- The state of a freshly constructed component. -/
def initState (V : Type) : SMTState V := {}

/-- `recreateDataSource`: a new `MatTableDataSource` over the current data
array (its filter starts empty).  The guard `if (this.columns && this.data)`
is always satisfied here because arrays are truthy in JS and the model has
no null inputs.  The filter predicate it installs is the function
`filterPredicate` below; paginator and sort wiring and `displayedColumns`
are rendering-only and outside the state. -/
def recreateDataSourceM (s : SMTState V) : SMTState V :=
  { s with dataSource := some (s.data, []) }

/-- `turnOffSorting`: clear the active sort if there is one. -/
def turnOffSorting (s : SMTState V) : SMTState V :=
  if s.sortActive then { s with sortActive := false } else s

/-- `clearAddedEntry`: walk the status map in insertion order; for every
entry flagged `added`, remember its key (last one wins) and
`data.splice(data.indexOf(key), 1)`; finally delete the remembered key. -/
def clearAddedEntry (s : SMTState V) : SMTState V :=
  let acc := s.dataStatus.foldl
    (fun (p : Option Nat × List Nat) kv =>
      if kv.2.added then (some kv.1, jsSpliceRemove1 p.2 (jsIndexOf p.2 kv.1)) else p)
    (none, s.data)
  { s with
    data := acc.2
    dataStatus :=
      match acc.1 with
      | some k => assocDelete s.dataStatus k
      | none => s.dataStatus }

/-- `dataStatus.clear(); data.forEach(d => dataStatus.set(d, new DataStatus()))`. -/
def freshAll (l : List Nat) : List (Nat × DataStatus) :=
  l.foldl (fun m r => assocSet m r {}) []

/-- `cleanUpAfterDataChange`: reset every row status, clear the form
controls, re-sort or turn sorting off, clear the adding flag.  `sortFn` is
the ambient `dataSource.sortData(_, matSort)`. -/
def cleanUpAfterDataChange (sortFn : List Nat → List Nat) (columnChanges : Bool)
    (s : SMTState V) : SMTState V :=
  let s1 := { s with dataStatus := freshAll s.data, formControls := ([] : List (Key × Control V)) }
  let s2 :=
    if s1.sortActive then
      if columnChanges then turnOffSorting s1
      else { s1 with dataSource := s1.dataSource.map (fun p => (sortFn p.1, p.2)) }
    else s1
  { s2 with currentlyAdding := false }

/-- `cleanUpAfterColChange`: reset every existing row status in place,
clear the form controls, save a shallow copy of each current column
(`Object.assign({}, col)`, which in this value model is the same record),
clear the adding flag. -/
def cleanUpAfterColChange (cols : List ColObj) (s : SMTState V) : SMTState V :=
  { s with
    dataStatus := s.dataStatus.map (fun kv => (kv.1, {}))
    formControls := ([] : List (Key × Control V))
    oldColumns := cols
    currentlyAdding := false }

/-- `prepareForColChange` -/
def prepareForColChange (s : SMTState V) : SMTState V :=
  turnOffSorting (clearAddedEntry s)

/-- `ngOnChanges` when `changes.data` is present: Angular has already
assigned the new `data` input; `cc` is `!!changes.columns`. -/
def ngOnChangesM (sortFn : List Nat → List Nat) (newData : List Nat) (cc : Bool)
    (s : SMTState V) : SMTState V :=
  cleanUpAfterDataChange sortFn cc (recreateDataSourceM (clearAddedEntry { s with data := newData }))

/-- `ngDoCheck`: rebuild on a detected column change, else do nothing.
`cols` is the current `columns` input as raw records. -/
def ngDoCheckM (cols : List ColObj) (s : SMTState V) : SMTState V :=
  if checkForDifferences s.oldColumns cols then
    cleanUpAfterColChange cols (recreateDataSourceM (prepareForColChange s))
  else s

/-- `startAddElement`: `newRef` is the reference of the object returned by
the user-supplied `create()`. -/
def startAddElement (newRef : Nat) (sortFn : List Nat → List Nat)
    (s : SMTState V) : SMTState V :=
  let s1 := cleanUpAfterDataChange sortFn false (recreateDataSourceM { s with data := newRef :: s.data })
  { s1 with
    dataStatus := assocSet s1.dataStatus newRef { added := true, editing := true }
    currentlyAdding := true }

/-- `startEditElement` -/
def startEditElement (ref : Nat) (s : SMTState V) : SMTState V :=
  let status := (assocGet s.dataStatus ref).getD {}
  { s with dataStatus := assocSet s.dataStatus ref { status with editing := true } }

/-- `cancelEditElement`: `dataStatus.get(element).editing = false`; on an
unknown element the property write throws, leaving the state unchanged. -/
def cancelEditElement (ref : Nat) (s : SMTState V) : SMTState V :=
  match assocGet s.dataStatus ref with
  | none => s
  | some st => { s with dataStatus := assocSet s.dataStatus ref { st with editing := false } }

/-- `getFormControl`: return the cached control for `<rowIndex>_<colIndex>`
or create one initialised through the column's `init` hook (or the raw
property value).  A first call on a column without a form field throws on
`tcol.formField.init` before any mutation (`none` result). -/
def getFormControlRun [Inhabited V] (rowIndex colIndex : Nat) (tcol : TableColumn V)
    (cont : Cont V) (s : SMTState V) : Option (Control V) × SMTState V :=
  let id := natKey rowIndex colIndex
  match assocGet s.formControls id with
  | some c => (some c, s)
  | none =>
    match tcol.formField with
    | none => (none, s)
    | some ff =>
      let c : Control V :=
        { value := match ff.init with
            | some f => f (jsGet cont tcol.property) cont
            | none => jsGet cont tcol.property
          valid := true }
      (some c, { s with formControls := assocSet s.formControls id c })

/-- The control `getFormControl` creates on a miss:
`fb.control(tcol.formField.init ? tcol.formField.init(element[tcol.property], element) : element[tcol.property])`,
a control that carries its initial value and (having no validators) is valid. -/
def newControl [Inhabited V] (tcol : TableColumn V) (ff : FormField V) (cont : Cont V) :
    Control V :=
  { value := match ff.init with
      | some f => f (jsGet cont tcol.property) cont
      | none => jsGet cont tcol.property
    valid := true }

/-- The row's add/edit result events. -/
inductive Event (V : Type) where
  | add (c : Cont V)
  | edit (c : Cont V)
deriving DecidableEq

/-- The collection step of `saveElement`:
`iteratorToArray(formControls.entries()).filter(e => e[0].startsWith(rowIndex.toString())).map(e => ({col: +(e[0].split('_')[1]), control: e[1]}))`. -/
def saveElementCollect (rowIndex : Nat) (fcs : List (Key × Control V)) :
    List (Option Nat × Control V) :=
  (fcs.filter (fun e => strStarts e.1 (Nat.repr rowIndex).toList)).map
    (fun e => ((afterFirst '_' e.1).bind jsToNum, e.2))

/-- The application loop of `saveElement`: for each collected control,
`element[tcol.property] = tcol.formField.apply ? tcol.formField.apply(val, element[tcol.property], element) : val`
on the deep copy `element`.  A `NaN`/out-of-range column index or a column
without a form field throws (`none`). -/
def saveApply [Inhabited V] (cols : List (TableColumn V))
    (controls : List (Option Nat × Control V)) (element : Cont V) : Option (Cont V) :=
  controls.foldlM
    (fun acc c => do
      let ci ← c.1
      match (getDisplayedCols cols).get? ci with
      | none => none
      | some tcol =>
        match tcol.formField with
        | none => none
        | some ff =>
          let v := c.2.value
          some (assocSet acc tcol.property
            (match ff.apply with
             | some f => f v (jsGet acc tcol.property) acc
             | none => v)))
    element

/-- `saveElement(rowIndex, oldElement)`.  `contOldElem` is the contents of
the row object `oldElement`; the deep copy it is applied to has, at this
value level, the same contents (the heap-level copy is `JsHeap.deepCopy`
below).  Result: `none` models an exception (nothing was mutated before the
throwing expression), otherwise the new state and the emitted event, where
an early validity return emits nothing. -/
def saveElementRun [Inhabited V] (cols : List (TableColumn V)) (contOldElem : Cont V)
    (rowIndex oldRef : Nat) (s : SMTState V) :
    Option (SMTState V × Option (Event V)) :=
  let controls := saveElementCollect rowIndex s.formControls
  if controls.any (fun c => !c.2.valid) then some (s, none)
  else
    match saveApply cols controls contOldElem with
    | none => none
    | some element =>
      match assocGet s.dataStatus oldRef with
      | none => none
      | some st =>
        if st.added then
          some ({ s with currentlyAdding := false, data := s.data.tail }, some (.add element))
        else some (s, some (.edit element))

/-- The state transition of `saveElement` (an exception leaves the tracked
state unchanged). -/
def saveElementStep [Inhabited V] (cols : List (TableColumn V)) (contOldElem : Cont V)
    (rowIndex oldRef : Nat) (s : SMTState V) : SMTState V :=
  match saveElementRun cols contOldElem rowIndex oldRef s with
  | some (s', _) => s'
  | none => s

/-- `applyFilter(filterValue)`: trim, lowercase, store in the data source's
filter; with no data source yet the property write throws. -/
def applyFilterM (v : Str) (s : SMTState V) : SMTState V :=
  match s.dataSource with
  | none => s
  | some (d, _) => { s with dataSource := some (d, jsLower (jsTrim v)) }

/-- The filter predicate `recreateDataSource` installs:
`columns.reduce((str, col) => str + getStringRepresentation(col, data).toLowerCase().trim(), '').indexOf(filter.toLowerCase().trim()) >= 0`. -/
def filterPredicate [Inhabited V] (vToStr : V → Str) (cols : List (TableColumn V))
    (cont : Cont V) (filt : Str) : Bool :=
  jsContainsSub
    (cols.foldl (fun acc c => acc ++ jsTrim (jsLower (getStringRepresentation vToStr c cont))) [])
    (jsTrim (jsLower filt))

/-- The row-matching notion as the specification claim words it: the
concatenation over all configured columns of each column's trimmed,
lowercased string representation contains, as a contiguous substring, the
filter input with surrounding whitespace removed and lowercased. -/
def specRowMatches [Inhabited V] (vToStr : V → Str) (cols : List (TableColumn V))
    (cont : Cont V) (v : Str) : Prop :=
  ∃ a b,
    cols.foldl (fun acc c => acc ++ jsLower (jsTrim (getStringRepresentation vToStr c cont))) []
      = a ++ jsLower (jsTrim v) ++ b

/-- `ngOnInit`: throw iff adding is enabled without a create function. -/
def ngOnInitM (addable : Bool) (create : Option (Unit → Cont V)) (s : SMTState V) :
    Except String (SMTState V) :=
  if addable && create.isNone then
    Except.error "adding was set to true, but you did not supply a create function"
  else Except.ok s

section Steps

variable {V : Type} [DecidableEq V] [Inhabited V]

/-- One observable operation on the component: the Angular lifecycle hooks
and the public methods the template invokes. -/
inductive SMTStep : SMTState V → SMTState V → Prop where
  | onChanges (sortFn : List Nat → List Nat) (newData : List Nat) (cc : Bool)
      (s : SMTState V) : SMTStep s (ngOnChangesM sortFn newData cc s)
  | doCheck (cols : List ColObj) (s : SMTState V) : SMTStep s (ngDoCheckM cols s)
  | startAdd (newRef : Nat) (sortFn : List Nat → List Nat) (s : SMTState V) :
      SMTStep s (startAddElement newRef sortFn s)
  | save (cols : List (TableColumn V)) (cont : Cont V) (rowIndex oldRef : Nat)
      (s : SMTState V) : SMTStep s (saveElementStep cols cont rowIndex oldRef s)
  | startEdit (ref : Nat) (s : SMTState V) : SMTStep s (startEditElement ref s)
  | cancelEdit (ref : Nat) (s : SMTState V) : SMTStep s (cancelEditElement ref s)
  | getFC (r c : Nat) (tcol : TableColumn V) (cont : Cont V) (s : SMTState V) :
      SMTStep s ((getFormControlRun r c tcol cont s).2)
  | applyF (v : Str) (s : SMTState V) : SMTStep s (applyFilterM v s)

/-- The states the component can reach from construction. -/
def Reachable (s : SMTState V) : Prop :=
  Relation.ReflTransGen SMTStep (initState V) s

end Steps

/-- The number of status entries carrying the `added` flag. -/
def countAdded (m : List (Nat × DataStatus)) : Nat :=
  (m.filter (fun kv => kv.2.added)).length

end SMC

namespace JsHeap

/-!  A small JS object heap, for `deepCopy` and the in-place property
assignments `saveElement` performs on the copy.  Primitive values
(numbers, strings, booleans — `typeof obj !== 'object'`) are identity
tokens; objects live behind references. -/

/-- A JS value. -/
inductive JsVal where
  | prim (tok : Nat)
  | null
  | undef
  | ref (r : Nat)
deriving DecidableEq

/-- A heap object: a `Date` (its time value), an array, or a plain object
with its own enumerable properties in insertion order. -/
inductive JsObj where
  | date (time : Int)
  | arr (elems : List JsVal)
  | obj (props : List (String × JsVal))
deriving DecidableEq

/-- The heap: an allocation counter and the allocated objects. -/
structure Heap where
  next : Nat := 0
  mem : List (Nat × JsObj) := []
deriving DecidableEq

/-- Every allocated reference is below the allocation counter. -/
def Heap.wf (h : Heap) : Prop := ∀ p ∈ h.mem, p.1 < h.next

def Heap.find (h : Heap) (r : Nat) : Option JsObj := SMC.assocGet h.mem r

/-- Allocate a fresh object (`new Date(...)`, `obj.map(...)`,
`new obj.constructor()`). -/
def Heap.alloc (h : Heap) (o : JsObj) : Heap × Nat :=
  ({ next := h.next + 1, mem := h.mem ++ [(h.next, o)] }, h.next)

/-- `target[k] = v` on a plain object behind `r` (the only shape
`saveElement` writes to). -/
def setProp (h : Heap) (r : Nat) (k : String) (v : JsVal) : Heap :=
  match h.find r with
  | some (.obj ps) => { h with mem := SMC.assocSet h.mem r (.obj (SMC.assocSet ps k v)) }
  | _ => h

/-- A sequence of property assignments on one object. -/
def applyWrites (h : Heap) (r : Nat) : List (String × JsVal) → Heap
  | [] => h
  | (k, v) :: ws => applyWrites (setProp h r k v) r ws

mutual

/-- `deepCopy(obj)`:
primitives, `null` and `undefined` are returned as they are; a `Date` is
rebuilt from its time value; an array becomes a new array with the same
elements (`obj.map(ele => ele)`); a plain object becomes a fresh object
whose own properties are deep-copied one by one.  `fuel` bounds the
recursion depth (the JS original diverges on cyclic objects). -/
def deepCopy (fuel : Nat) (h : Heap) (v : JsVal) : Option (Heap × JsVal) :=
  match fuel, v with
  | 0, _ => none
  | _ + 1, .prim t => some (h, .prim t)
  | _ + 1, .null => some (h, .null)
  | _ + 1, .undef => some (h, .undef)
  | fuel + 1, .ref r =>
    match h.find r with
    | none => none
    | some (.date t) =>
      let (h', r') := h.alloc (.date t)
      some (h', .ref r')
    | some (.arr es) =>
      let (h', r') := h.alloc (.arr es)
      some (h', .ref r')
    | some (.obj ps) =>
      match copyProps fuel h ps with
      | none => none
      | some (h', ps') =>
        let (h'', r') := h'.alloc (.obj ps')
        some (h'', .ref r')
termination_by (fuel, 0)

/-- The property loop of `deepCopy` over a plain object. -/
def copyProps (fuel : Nat) (h : Heap) (ps : List (String × JsVal)) :
    Option (Heap × List (String × JsVal)) :=
  match ps with
  | [] => some (h, [])
  | (k, v) :: ps' =>
    match deepCopy fuel h v with
    | none => none
    | some (h', v') =>
      match copyProps fuel h' ps' with
      | none => none
      | some (h'', ps'') => some (h'', (k, v') :: ps'')
termination_by (fuel, ps.length + 1)

end

end JsHeap

namespace SMF

/-!  The `AbstractFormField` fluent builder
(`projects/simplemattable/src/lib/model/abstract-form-field.model.ts`).
`VFn`, `I`, `A`, `E` abstract the validator-function, init-function,
apply-function and `FormError` types; fields that the class declares
without an initialiser are `Option`-valued. -/

/-- The argument of `withValidators`: a single validator or an array. -/
inductive ValidatorsArg (VFn : Type) where
  | single (f : VFn)
  | array (l : List VFn)
deriving DecidableEq

structure AbstractFormField (VFn I A E : Type) where
  validators : List VFn := []
  init : Option I := none
  apply : Option A := none
  errors : List E := []
  placeholder : String := ""
  hint : String := ""
deriving DecidableEq

/-- `withValidators`: `Array.isArray(validators) ? this.validators = validators : this.validators = [validators]; return this`. -/
def withValidators (ff : AbstractFormField VFn I A E) (v : ValidatorsArg VFn) :
    AbstractFormField VFn I A E :=
  match v with
  | .array l => { ff with validators := l }
  | .single f => { ff with validators := [f] }

def withInit (ff : AbstractFormField VFn I A E) (g : I) : AbstractFormField VFn I A E :=
  { ff with init := some g }

def withApply (ff : AbstractFormField VFn I A E) (g : A) : AbstractFormField VFn I A E :=
  { ff with apply := some g }

def withErrors (ff : AbstractFormField VFn I A E) (e : List E) : AbstractFormField VFn I A E :=
  { ff with errors := e }

def withPlaceholder (ff : AbstractFormField VFn I A E) (p : String) :
    AbstractFormField VFn I A E :=
  { ff with placeholder := p }

def withHint (ff : AbstractFormField VFn I A E) (h : String) : AbstractFormField VFn I A E :=
  { ff with hint := h }

end SMF

/-!  ## Lemmas and claim theorems -/

namespace SMC

variable {κ α : Type} [DecidableEq κ]

omit [DecidableEq κ] in
theorem keysOf_nil : keysOf ([] : List (κ × α)) = [] := rfl

omit [DecidableEq κ] in
theorem keysOf_cons (q : κ × α) (l : List (κ × α)) : keysOf (q :: l) = q.1 :: keysOf l := rfl

theorem assocGet_set_self (m : List (κ × α)) (k : κ) (v : α) :
    assocGet (assocSet m k v) k = some v := by
  induction m with
  | nil => simp [assocSet, assocGet]
  | cons p t ih =>
    by_cases h : p.1 = k
    · simp [assocSet, assocGet, h]
    · simpa [assocSet, assocGet, h] using ih

theorem assocGet_set_ne (m : List (κ × α)) {k k' : κ} (v : α) (h : k' ≠ k) :
    assocGet (assocSet m k v) k' = assocGet m k' := by
  have h' : ¬ k = k' := fun hh => h hh.symm
  induction m with
  | nil => simp [assocSet, assocGet, h']
  | cons p t ih =>
    by_cases hp : p.1 = k
    · subst hp
      simp [assocSet, assocGet, h']
    · by_cases hp' : p.1 = k'
      · simp [assocSet, assocGet, hp, hp', h]
      · simpa [assocSet, assocGet, hp, hp'] using ih

theorem keysOf_set (m : List (κ × α)) (k : κ) (v : α) :
    keysOf (assocSet m k v) = if k ∈ keysOf m then keysOf m else keysOf m ++ [k] := by
  induction m with
  | nil => simp [assocSet, keysOf]
  | cons p t ih =>
    by_cases hp : p.1 = k
    · subst hp
      simp [assocSet, keysOf_cons]
    · have hk' : ¬ k = p.1 := fun hh => hp hh.symm
      simp only [assocSet, if_neg hp, keysOf_cons, List.mem_cons, ih]
      by_cases hk : k ∈ keysOf t
      · simp [hk, hk']
      · simp [hk, hk']

theorem nodup_keys_set {m : List (κ × α)} (h : (keysOf m).Nodup) (k : κ) (v : α) :
    (keysOf (assocSet m k v)).Nodup := by
  rw [keysOf_set]
  by_cases hk : k ∈ keysOf m
  · simpa [hk] using h
  · simp only [hk, if_false]
    simpa [List.nodup_append] using ⟨h, hk⟩

theorem assocGet_eq_none_of_not_mem {m : List (κ × α)} {k : κ} (h : k ∉ keysOf m) :
    assocGet m k = none := by
  induction m with
  | nil => rfl
  | cons p t ih =>
    have h1 : ¬ p.1 = k := by
      intro hh
      exact h (by simp [keysOf_cons, hh])
    have h2 : k ∉ keysOf t := by
      intro hh
      exact h (by simp [keysOf_cons, hh])
    simp [assocGet, h1, ih h2]

theorem mem_keysOf_of_assocGet {m : List (κ × α)} {k : κ} {v : α}
    (h : assocGet m k = some v) : k ∈ keysOf m := by
  by_contra hk
  rw [assocGet_eq_none_of_not_mem hk] at h
  exact Option.noConfusion h

theorem assocGet_append_some {m : List (κ × α)} {k : κ} {v : α}
    (h : assocGet m k = some v) (m' : List (κ × α)) :
    assocGet (m ++ m') k = some v := by
  induction m with
  | nil => simp [assocGet] at h
  | cons p t ih =>
    by_cases hp : p.1 = k
    · simp only [assocGet, if_pos hp] at h
      simp [assocGet, hp, h]
    · simp only [assocGet, if_neg hp] at h
      simpa [assocGet, hp] using ih h

theorem assocGet_append_none {m : List (κ × α)} {k : κ}
    (h : assocGet m k = none) (m' : List (κ × α)) :
    assocGet (m ++ m') k = assocGet m' k := by
  induction m with
  | nil => rfl
  | cons p t ih =>
    by_cases hp : p.1 = k
    · simp [assocGet, hp] at h
    · simp only [assocGet, if_neg hp] at h
      simpa [assocGet, hp] using ih h

theorem assocGet_mem {m : List (κ × α)} {k : κ} {v : α}
    (h : assocGet m k = some v) : (k, v) ∈ m := by
  induction m with
  | nil => simp [assocGet] at h
  | cons p t ih =>
    by_cases hp : p.1 = k
    · simp only [assocGet, if_pos hp, Option.some.injEq] at h
      have : (k, v) = p := by
        rw [← hp, ← h]
      rw [this]
      exact List.mem_cons_self _ _
    · simp only [assocGet, if_neg hp] at h
      exact List.mem_cons_of_mem _ (ih h)

theorem assocGet_freshAll (l : List Nat) (r : Nat) :
    assocGet (freshAll l) r = if r ∈ l then some ({} : DataStatus) else none := by
  have gen : ∀ (m : List (Nat × DataStatus)),
      assocGet (l.foldl (fun m r => assocSet m r {}) m) r
        = if r ∈ l then some {} else assocGet m r := by
    induction l with
    | nil => intro m; simp
    | cons a t ih =>
      intro m
      simp only [List.foldl_cons, ih, List.mem_cons]
      by_cases hrt : r ∈ t
      · simp [hrt]
      · by_cases hra : r = a
        · subst hra
          simp [hrt, assocGet_set_self]
        · simp [hrt, hra, assocGet_set_ne _ _ hra]
  simpa [freshAll] using gen []

section ComponentLemmas

variable {V : Type} [DecidableEq V] [Inhabited V]

/-- The fields `cleanUpAfterDataChange` establishes, whatever the sorting
configuration is. -/
theorem cleanUpAfterDataChange_fields (sortFn : List Nat → List Nat) (cc : Bool)
    (t : SMTState V) :
    (cleanUpAfterDataChange sortFn cc t).dataStatus = freshAll t.data
    ∧ (cleanUpAfterDataChange sortFn cc t).data = t.data
    ∧ (cleanUpAfterDataChange sortFn cc t).formControls = []
    ∧ (cleanUpAfterDataChange sortFn cc t).currentlyAdding = false := by
  unfold cleanUpAfterDataChange turnOffSorting
  cases hs : t.sortActive <;> cases cc <;> simp [hs]

theorem recreateDataSourceM_fields (t : SMTState V) :
    (recreateDataSourceM t).data = t.data
    ∧ (recreateDataSourceM t).dataStatus = t.dataStatus
    ∧ (recreateDataSourceM t).formControls = t.formControls
    ∧ (recreateDataSourceM t).sortActive = t.sortActive := ⟨rfl, rfl, rfl, rfl⟩

/-- C3: after `ngOnChanges` has processed a change of the `data` input, the
row-status map holds exactly the elements of the (possibly spliced) current
data array, each with a fresh status that is neither editing nor added; the
form-control map is empty and `currentlyAdding` is false. -/
theorem ngOnChanges_resets_row_state (sortFn : List Nat → List Nat)
    (newData : List Nat) (cc : Bool) (s : SMTState V) :
    (∀ r : Nat, assocGet (ngOnChangesM sortFn newData cc s).dataStatus r
        = if r ∈ (ngOnChangesM sortFn newData cc s).data then some ({} : DataStatus) else none)
    ∧ (ngOnChangesM sortFn newData cc s).formControls = []
    ∧ (ngOnChangesM sortFn newData cc s).currentlyAdding = false := by
  have h := cleanUpAfterDataChange_fields sortFn cc
    (recreateDataSourceM (clearAddedEntry { s with data := newData }))
  have heq : ngOnChangesM sortFn newData cc s
      = cleanUpAfterDataChange sortFn cc
          (recreateDataSourceM (clearAddedEntry { s with data := newData })) := rfl
  refine ⟨?_, by rw [heq]; exact h.2.2.1, by rw [heq]; exact h.2.2.2⟩
  intro r
  rw [heq, h.1, h.2.1]
  exact assocGet_freshAll _ r

/-- `startsWith` holds of any extension of the prefix. -/
theorem strStarts_append {α : Type} [DecidableEq α] (l t : List α) :
    strStarts (l ++ t) l = true := by
  induction l with
  | nil => cases t <;> rfl
  | cons a l ih => simpa [strStarts] using ih

/-- C4: if some form control belonging to row `rowIndex` is invalid, then
`saveElement` returns early: it emits nothing and leaves the state (data
array reference, row-status map, form-control map, adding flag) untouched. -/
theorem saveElement_atomic_on_invalid (cols : List (TableColumn V)) (cont : Cont V)
    (rowIndex oldRef : Nat) (s : SMTState V) (colIdx : Nat) (c : Control V)
    (hmem : (natKey rowIndex colIdx, c) ∈ s.formControls) (hinv : c.valid = false) :
    saveElementRun cols cont rowIndex oldRef s = some (s, none) := by
  have hstarts : strStarts (natKey rowIndex colIdx) (Nat.repr rowIndex).toList = true := by
    have := strStarts_append (Nat.repr rowIndex).toList ('_' :: (Nat.repr colIdx).toList)
    simpa [natKey] using this
  have hany : (saveElementCollect rowIndex s.formControls).any (fun c => !c.2.valid) = true := by
    rw [List.any_eq_true]
    refine ⟨((afterFirst '_' (natKey rowIndex colIdx)).bind jsToNum, c), ?_, by simp [hinv]⟩
    unfold saveElementCollect
    exact List.mem_map.mpr ⟨(natKey rowIndex colIdx, c),
      List.mem_filter.mpr ⟨hmem, hstarts⟩, rfl⟩
  simp [saveElementRun, hany]

/-- Witness for `saveElement_atomic_on_invalid`: a concrete state holding
one invalid control for row 1. -/
theorem saveElement_atomic_on_invalid_witness :
    saveElementRun ([] : List (TableColumn Nat)) [] 1 0
        { formControls := [(natKey 1 0, ⟨5, false⟩)] }
      = some ({ formControls := [(natKey 1 0, ⟨5, false⟩)] }, none) :=
  saveElement_atomic_on_invalid [] [] 1 0 _ 0 ⟨5, false⟩ (List.mem_singleton.mpr rfl) rfl

/-- C7: `getFormControl` is idempotent per cell.  On a miss it creates a
control whose value comes from the column's `init` hook applied to the
element's property value (or the raw property value without a hook) and
appends it under the key `<rowIndex>_<colIndex>`; any later call with the
same pair returns exactly that control and does not change the state, no
matter which column or element it is given; distinct keys stay distinct. -/
theorem getFormControl_idempotent (r c : Nat) (tcol : TableColumn V) (cont : Cont V)
    (s : SMTState V) (ff : FormField V)
    (hmiss : assocGet s.formControls (natKey r c) = none)
    (hff : tcol.formField = some ff) :
    (getFormControlRun r c tcol cont s).1 = some (newControl tcol ff cont)
    ∧ (getFormControlRun r c tcol cont s).2
        = { s with formControls :=
              assocSet s.formControls (natKey r c) (newControl tcol ff cont) }
    ∧ (∀ (tcol' : TableColumn V) (cont' : Cont V),
        getFormControlRun r c tcol' cont' ((getFormControlRun r c tcol cont s).2)
          = ((getFormControlRun r c tcol cont s).1, (getFormControlRun r c tcol cont s).2))
    ∧ ((keysOf s.formControls).Nodup →
        (keysOf (getFormControlRun r c tcol cont s).2.formControls).Nodup) := by
  have hhit : ∀ (tc : TableColumn V) (ct : Cont V) (s' : SMTState V) (ctl : Control V),
      assocGet s'.formControls (natKey r c) = some ctl →
      getFormControlRun r c tc ct s' = (some ctl, s') := by
    intro tc ct s' ctl h
    simp only [getFormControlRun, h]
  have hrun : getFormControlRun r c tcol cont s
      = (some (newControl tcol ff cont),
         { s with formControls :=
            assocSet s.formControls (natKey r c) (newControl tcol ff cont) }) := by
    simp only [getFormControlRun, newControl, hmiss, hff]
  refine ⟨by rw [hrun], by rw [hrun], ?_, ?_⟩
  · intro tcol' cont'
    rw [hrun]
    exact hhit tcol' cont' _ _ (assocGet_set_self _ _ _)
  · intro hnd
    rw [hrun]
    exact nodup_keys_set hnd _ _

/-- Witness for `getFormControl_idempotent`: cell (0,0) over a one-property
element, no `init` hook. -/
theorem getFormControl_idempotent_witness :
    (getFormControlRun 0 0 { property := "x", formField := some {} } [("x", (5 : Nat))]
        (initState Nat)).1
      = some (newControl { property := "x", formField := some {} } {} [("x", (5 : Nat))])
    ∧ (getFormControlRun 0 0 { property := "x", formField := some {} } [("x", (5 : Nat))]
        (initState Nat)).2
      = { initState Nat with
          formControls := assocSet (initState Nat).formControls (natKey 0 0)
            (newControl { property := "x", formField := some {} } {} [("x", (5 : Nat))]) } := by
  have h := getFormControl_idempotent 0 0
    { property := "x", formField := some ({} : FormField Nat) } [("x", (5 : Nat))]
    (initState Nat) {} rfl rfl
  exact ⟨h.1, h.2.1⟩

end ComponentLemmas

/-- C2 (code bug): `saveElement(1, _)` is meant to collect only the
controls of row 1 (keys `1_<col>`), but the `startsWith` test also matches
row 12's key `12_0`.  With controls for rows 1 and 12 both present, the
collected list contains row 12's control, and its value (20) — applied
after row 1's (10) to the same column 0 — is what ends up in the emitted
element. -/
theorem saveElement_collects_foreign_row :
    saveElementCollect 1
        [(natKey 1 0, ({ value := 10, valid := true } : Control Nat)),
         (natKey 12 0, { value := 20, valid := true })]
      = [(some 0, { value := 10, valid := true }), (some 0, { value := 20, valid := true })]
    ∧ saveElementRun [{ property := "x", formField := some {} }] [("x", (0 : Nat))] 1 7
        { dataStatus := [(7, {})],
          formControls := [(natKey 1 0, { value := 10, valid := true }),
                           (natKey 12 0, { value := 20, valid := true })] }
      = some ({ dataStatus := [(7, {})],
                formControls := [(natKey 1 0, { value := 10, valid := true }),
                                 (natKey 12 0, { value := 20, valid := true })] },
              some (Event.edit [("x", 20)])) := by
  constructor <;> decide

section InvariantLemmas

variable {V : Type} [DecidableEq V] [Inhabited V]

theorem countAdded_cons (p : Nat × DataStatus) (t : List (Nat × DataStatus)) :
    countAdded (p :: t) = (if p.2.added then 1 else 0) + countAdded t := by
  cases h : p.2.added <;> simp [countAdded, List.filter_cons, h, Nat.add_comm]

theorem countAdded_set_le (m : List (Nat × DataStatus)) (k : Nat) (v : DataStatus) :
    countAdded (assocSet m k v) ≤ countAdded m + (if v.added then 1 else 0) := by
  induction m with
  | nil =>
    cases hv : v.added <;> simp [assocSet, countAdded_cons, countAdded, hv]
  | cons p t ih =>
    by_cases hp : p.1 = k
    · simp only [assocSet, if_pos hp, countAdded_cons]
      cases hv : v.added <;> cases hpa : p.2.added <;> simp [hv, hpa] <;> omega
    · simp only [assocSet, if_neg hp, countAdded_cons]
      cases hv : v.added <;> cases hpa : p.2.added <;>
        simp [hv, hpa] at ih ⊢ <;> omega

theorem countAdded_set_notadded {v : DataStatus} (hv : v.added = false)
    (m : List (Nat × DataStatus)) (k : Nat) :
    countAdded (assocSet m k v) ≤ countAdded m := by
  have := countAdded_set_le m k v
  simpa [hv] using this

theorem countAdded_set_existing {m : List (Nat × DataStatus)} {k : Nat} {st : DataStatus}
    (v : DataStatus) (hget : assocGet m k = some st) (hadd : v.added = st.added) :
    countAdded (assocSet m k v) = countAdded m := by
  induction m with
  | nil => simp [assocGet] at hget
  | cons p t ih =>
    by_cases hp : p.1 = k
    · simp only [assocGet, if_pos hp, Option.some.injEq] at hget
      subst hget
      simp [assocSet, hp, countAdded_cons, hadd]
    · simp only [assocGet, if_neg hp] at hget
      simp [assocSet, hp, countAdded_cons, ih hget]

theorem countAdded_set_new {m : List (Nat × DataStatus)} {k : Nat} {v : DataStatus}
    (hget : assocGet m k = none) (hv : v.added = false) :
    countAdded (assocSet m k v) = countAdded m := by
  induction m with
  | nil => simp [assocSet, countAdded_cons, countAdded, hv]
  | cons p t ih =>
    by_cases hp : p.1 = k
    · simp [assocGet, hp] at hget
    · simp only [assocGet, if_neg hp] at hget
      simp [assocSet, hp, countAdded_cons, ih hget]

theorem countAdded_map_fresh (m : List (Nat × DataStatus)) :
    countAdded (m.map (fun kv => (kv.1, ({} : DataStatus)))) = 0 := by
  induction m with
  | nil => rfl
  | cons p t ih => simpa [countAdded_cons] using ih

theorem countAdded_freshAll (l : List Nat) : countAdded (freshAll l) = 0 := by
  have gen : ∀ m, countAdded (l.foldl (fun m r => assocSet m r {}) m) ≤ countAdded m := by
    induction l with
    | nil => intro m; simp
    | cons a t ih =>
      intro m
      exact le_trans (ih (assocSet m a {})) (countAdded_set_notadded rfl m a)
  have h0 := gen []
  have hz : countAdded ([] : List (Nat × DataStatus)) = 0 := rfl
  rw [hz] at h0
  simp only [freshAll]
  omega

theorem countAdded_delete_le (m : List (Nat × DataStatus)) (k : Nat) :
    countAdded (assocDelete m k) ≤ countAdded m := by
  induction m with
  | nil => simp [assocDelete]
  | cons p t ih =>
    by_cases hp : p.1 = k
    · simp only [assocDelete, if_pos hp, countAdded_cons]
      omega
    · simp only [assocDelete, if_neg hp, countAdded_cons]
      omega

theorem clearAddedEntry_count_le (s : SMTState V) :
    countAdded (clearAddedEntry s).dataStatus ≤ countAdded s.dataStatus := by
  unfold clearAddedEntry
  cases h : (s.dataStatus.foldl
      (fun (p : Option Nat × List Nat) kv =>
        if kv.2.added then (some kv.1, jsSpliceRemove1 p.2 (jsIndexOf p.2 kv.1)) else p)
      (none, s.data)).1 with
  | none => simp [h]
  | some k => simpa [h] using countAdded_delete_le s.dataStatus k

theorem ngOnChangesM_count (sortFn : List Nat → List Nat) (newData : List Nat) (cc : Bool)
    (s : SMTState V) :
    countAdded (ngOnChangesM sortFn newData cc s).dataStatus = 0 := by
  have h := (cleanUpAfterDataChange_fields sortFn cc
    (recreateDataSourceM (clearAddedEntry { s with data := newData }))).1
  show countAdded (cleanUpAfterDataChange sortFn cc _).dataStatus = 0
  rw [h]
  exact countAdded_freshAll _

theorem ngDoCheckM_count (cols : List ColObj) (s : SMTState V) :
    countAdded (ngDoCheckM cols s).dataStatus = countAdded s.dataStatus
    ∨ countAdded (ngDoCheckM cols s).dataStatus = 0 := by
  unfold ngDoCheckM
  by_cases h : checkForDifferences s.oldColumns cols
  · right
    simp only [h, if_true]
    exact countAdded_map_fresh _
  · left
    simp [h]

theorem startAddElement_count (newRef : Nat) (sortFn : List Nat → List Nat)
    (s : SMTState V) :
    countAdded (startAddElement newRef sortFn s).dataStatus ≤ 1 := by
  have hfresh := (cleanUpAfterDataChange_fields sortFn false
    (recreateDataSourceM { s with data := newRef :: s.data })).1
  have hle := countAdded_set_le
    (freshAll (recreateDataSourceM { s with data := newRef :: s.data }).data)
    newRef { added := true, editing := true }
  rw [countAdded_freshAll] at hle
  show countAdded (assocSet (cleanUpAfterDataChange sortFn false
      (recreateDataSourceM { s with data := newRef :: s.data })).dataStatus
      newRef { added := true, editing := true }) ≤ 1
  rw [hfresh]
  simpa using hle

theorem startEditElement_count (ref : Nat) (s : SMTState V) :
    countAdded (startEditElement ref s).dataStatus = countAdded s.dataStatus := by
  unfold startEditElement
  cases h : assocGet s.dataStatus ref with
  | none => simpa [h] using countAdded_set_new h rfl
  | some st => simpa [h] using countAdded_set_existing ({ st with editing := true }) h rfl

theorem cancelEditElement_count (ref : Nat) (s : SMTState V) :
    countAdded (cancelEditElement ref s).dataStatus = countAdded s.dataStatus := by
  unfold cancelEditElement
  cases h : assocGet s.dataStatus ref with
  | none => rfl
  | some st => simpa [h] using countAdded_set_existing ({ st with editing := false }) h rfl

theorem saveElementRun_state (cols : List (TableColumn V)) (cont : Cont V)
    (rowIndex oldRef : Nat) (s : SMTState V) (p : SMTState V × Option (Event V))
    (hp : saveElementRun cols cont rowIndex oldRef s = some p) :
    p.1.dataStatus = s.dataStatus ∧ p.1.formControls = s.formControls
    ∧ p.1.oldColumns = s.oldColumns ∧ p.1.currentlyAdding = false ∨ p.1 = s := by
  unfold saveElementRun at hp
  by_cases h1 : (saveElementCollect rowIndex s.formControls).any (fun c => !c.2.valid)
  · right
    simp only [h1, if_true] at hp
    cases hp
    rfl
  · simp only [h1, Bool.false_eq_true, if_false] at hp
    cases hap : saveApply cols (saveElementCollect rowIndex s.formControls) cont with
    | none => rw [hap] at hp; exact absurd hp (by simp)
    | some element =>
      rw [hap] at hp
      cases hst : assocGet s.dataStatus oldRef with
      | none => rw [hst] at hp; exact absurd hp (by simp)
      | some st =>
        rw [hst] at hp
        by_cases hadd : st.added
        · left
          simp only [hadd, if_true] at hp
          cases hp
          exact ⟨rfl, rfl, rfl, rfl⟩
        · right
          simp only [hadd, Bool.false_eq_true, if_false] at hp
          cases hp
          rfl

theorem saveElementStep_dataStatus (cols : List (TableColumn V)) (cont : Cont V)
    (rowIndex oldRef : Nat) (s : SMTState V) :
    (saveElementStep cols cont rowIndex oldRef s).dataStatus = s.dataStatus := by
  unfold saveElementStep
  cases hr : saveElementRun cols cont rowIndex oldRef s with
  | none => rfl
  | some p =>
    obtain ⟨p1, p2⟩ := p
    rcases saveElementRun_state cols cont rowIndex oldRef s (p1, p2) hr with h | h
    · exact h.1
    · simpa using congrArg SMTState.dataStatus h

theorem getFormControlRun_dataStatus (r c : Nat) (tcol : TableColumn V) (cont : Cont V)
    (s : SMTState V) :
    (getFormControlRun r c tcol cont s).2.dataStatus = s.dataStatus := by
  cases h : assocGet s.formControls (natKey r c) with
  | some c' => simp [getFormControlRun, h]
  | none => cases hff : tcol.formField <;> simp [getFormControlRun, h, hff]

theorem applyFilterM_dataStatus (v : Str) (s : SMTState V) :
    (applyFilterM v s).dataStatus = s.dataStatus := by
  unfold applyFilterM
  cases s.dataSource with
  | none => rfl
  | some p => rfl

/-- Every single step keeps the number of `added` statuses at most one. -/
theorem step_countAdded {s s' : SMTState V} (h : SMTStep s s')
    (hs : countAdded s.dataStatus ≤ 1) : countAdded s'.dataStatus ≤ 1 := by
  cases h with
  | onChanges sortFn newData cc s =>
    rw [ngOnChangesM_count]
    omega
  | doCheck cols s =>
    rcases ngDoCheckM_count cols s with h | h <;> omega
  | startAdd newRef sortFn s => exact startAddElement_count newRef sortFn s
  | save cols cont rowIndex oldRef s =>
    rw [saveElementStep_dataStatus]
    exact hs
  | startEdit ref s =>
    rw [startEditElement_count]
    exact hs
  | cancelEdit ref s =>
    rw [cancelEditElement_count]
    exact hs
  | getFC r c tcol cont s =>
    rw [getFormControlRun_dataStatus]
    exact hs
  | applyF v s =>
    rw [applyFilterM_dataStatus]
    exact hs

end InvariantLemmas

theorem jsIndexOf_nonneg_lt {l : List Nat} {e : Nat} (h : e ∈ l) :
    0 ≤ jsIndexOf l e ∧ jsIndexOf l e < l.length := by
  induction l with
  | nil => cases h
  | cons a t ih =>
    by_cases ha : a = e
    · simp only [jsIndexOf, if_pos ha, List.length_cons]
      omega
    · have he : e ∈ t := by
        rcases List.mem_cons.mp h with hh | hh
        · exact absurd hh.symm ha
        · exact hh
      have hb := ih he
      simp only [jsIndexOf, if_neg ha, List.length_cons]
      have h2 : ¬ jsIndexOf t e < 0 := by omega
      rw [if_neg h2]
      push_cast
      omega

theorem jsSpliceRemove1_of_nonneg {α : Type} {l : List α} {i : Int}
    (h0 : 0 ≤ i) (hl : i < l.length) :
    jsSpliceRemove1 l i = l.take i.toNat ++ l.drop (i.toNat + 1) := by
  unfold jsSpliceRemove1
  have h1 : ¬ i < 0 := by omega
  have hmin : min i (l.length : Int) = i := min_eq_left (by omega)
  simp only [h1, if_false, hmin]

theorem jsSplice_indexOf_erase {l : List Nat} {e : Nat} (h : e ∈ l) :
    jsSpliceRemove1 l (jsIndexOf l e) = l.erase e := by
  induction l with
  | nil => cases h
  | cons a t ih =>
    by_cases ha : a = e
    · subst ha
      have : jsIndexOf (a :: t) a = 0 := by simp [jsIndexOf]
      rw [this, jsSpliceRemove1_of_nonneg (by omega) (by simp)]
      simp [List.erase_cons]
    · have he : e ∈ t := by
        rcases List.mem_cons.mp h with hh | hh
        · exact absurd hh.symm ha
        · exact hh
      have hb := jsIndexOf_nonneg_lt he
      have hix : jsIndexOf (a :: t) e = jsIndexOf t e + 1 := by
        have h2 : ¬ jsIndexOf t e < 0 := by omega
        simp only [jsIndexOf, if_neg ha]
        rw [if_neg h2]
      rw [hix, jsSpliceRemove1_of_nonneg (by omega) (by simp; omega)]
      have ht : (jsIndexOf t e + 1).toNat = (jsIndexOf t e).toNat + 1 := by omega
      rw [ht, List.take_succ_cons, List.drop_succ_cons, List.erase_cons, if_neg (by simpa using ha)]
      have := ih he
      rw [jsSpliceRemove1_of_nonneg hb.1 hb.2] at this
      rw [List.cons_append, this]

theorem clearFold_skip (m : List (Nat × DataStatus))
    (h : ∀ kv ∈ m, kv.2.added = false) (p : Option Nat × List Nat) :
    m.foldl
      (fun (p : Option Nat × List Nat) kv =>
        if kv.2.added then (some kv.1, jsSpliceRemove1 p.2 (jsIndexOf p.2 kv.1)) else p)
      p = p := by
  induction m generalizing p with
  | nil => rfl
  | cons q t ih =>
    have hq : q.2.added = false := h q (by simp)
    simp only [List.foldl_cons, hq, Bool.false_eq_true, if_false]
    exact ih (fun kv hk => h kv (by simp [hk])) p

theorem not_mem_keysOf_delete {κ α : Type} [DecidableEq κ] {m : List (κ × α)}
    (hnd : (keysOf m).Nodup) (k : κ) :
    k ∉ keysOf (assocDelete m k) := by
  induction m with
  | nil => simp [assocDelete, keysOf]
  | cons p t ih =>
    rw [keysOf_cons] at hnd
    by_cases hp : p.1 = k
    · subst hp
      simp only [assocDelete, if_pos rfl]
      exact (List.nodup_cons.mp hnd).1
    · simp only [assocDelete, if_neg hp, keysOf_cons, List.mem_cons]
      push_neg
      exact ⟨fun hh => hp hh.symm, ih (List.nodup_cons.mp hnd).2⟩

section C5Block

variable {V : Type} [DecidableEq V] [Inhabited V]

theorem clearAddedEntry_removes (s : SMTState V) (e : Nat) (st : DataStatus)
    (m₁ m₂ : List (Nat × DataStatus))
    (hsplit : s.dataStatus = m₁ ++ (e, st) :: m₂) (hadd : st.added = true)
    (h₁ : ∀ kv ∈ m₁, kv.2.added = false) (h₂ : ∀ kv ∈ m₂, kv.2.added = false)
    (he : e ∈ s.data) (hnd : (keysOf s.dataStatus).Nodup) :
    (clearAddedEntry s).data = s.data.erase e
    ∧ (clearAddedEntry s).dataStatus = assocDelete s.dataStatus e
    ∧ e ∉ keysOf (clearAddedEntry s).dataStatus := by
  have hfold : s.dataStatus.foldl
      (fun (p : Option Nat × List Nat) kv =>
        if kv.2.added then (some kv.1, jsSpliceRemove1 p.2 (jsIndexOf p.2 kv.1)) else p)
      (none, s.data) = (some e, s.data.erase e) := by
    rw [hsplit, List.foldl_append, clearFold_skip m₁ h₁, List.foldl_cons]
    simp only [hadd, if_true]
    rw [jsSplice_indexOf_erase he]
    exact clearFold_skip m₂ h₂ _
  have hres : clearAddedEntry s
      = { s with data := s.data.erase e, dataStatus := assocDelete s.dataStatus e } := by
    unfold clearAddedEntry
    rw [hfold]
  refine ⟨by rw [hres], by rw [hres], ?_⟩
  rw [hres]
  exact not_mem_keysOf_delete hnd e

/-- C5: in every reachable component state at most one row-status entry is
flagged `added`.  Moreover `startAddElement` puts the created element at
the front of the external data array, maps it to an added and editing
status and raises `currentlyAdding`; `clearAddedEntry` removes a pending
added element from both the data array and the row-status map; and both
rebuild paths — a data change (`ngOnChanges`) and a detected column change
(`ngDoCheck`) — leave no added status behind at all. -/
theorem atMostOneAdded_invariant :
    (∀ s : SMTState V, Reachable s → countAdded s.dataStatus ≤ 1)
    ∧ (∀ (newRef : Nat) (sortFn : List Nat → List Nat) (s : SMTState V),
        (startAddElement newRef sortFn s).data = newRef :: s.data
        ∧ assocGet (startAddElement newRef sortFn s).dataStatus newRef
            = some { editing := true, added := true }
        ∧ (startAddElement newRef sortFn s).currentlyAdding = true)
    ∧ (∀ (s : SMTState V) (e : Nat) (st : DataStatus)
        (m₁ m₂ : List (Nat × DataStatus)),
        s.dataStatus = m₁ ++ (e, st) :: m₂ → st.added = true →
        (∀ kv ∈ m₁, kv.2.added = false) → (∀ kv ∈ m₂, kv.2.added = false) →
        e ∈ s.data → (keysOf s.dataStatus).Nodup →
        (clearAddedEntry s).data = s.data.erase e
        ∧ (clearAddedEntry s).dataStatus = assocDelete s.dataStatus e
        ∧ e ∉ keysOf (clearAddedEntry s).dataStatus)
    ∧ (∀ (sortFn : List Nat → List Nat) (newData : List Nat) (cc : Bool) (s : SMTState V),
        countAdded (ngOnChangesM sortFn newData cc s).dataStatus = 0)
    ∧ (∀ (cols : List ColObj) (s : SMTState V),
        checkForDifferences s.oldColumns cols = true →
        countAdded (ngDoCheckM cols s).dataStatus = 0) := by
  refine ⟨?_, ?_, clearAddedEntry_removes, ngOnChangesM_count, ?_⟩
  · intro s h
    unfold Reachable at h
    induction h with
    | refl => exact Nat.le_of_eq rfl |>.trans (by simp [initState, countAdded])
    | tail hr hstep ih => exact step_countAdded hstep ih
  · intro newRef sortFn s
    refine ⟨?_, assocGet_set_self _ _ _, rfl⟩
    show (cleanUpAfterDataChange sortFn false
        (recreateDataSourceM { s with data := newRef :: s.data })).data = newRef :: s.data
    rw [(cleanUpAfterDataChange_fields _ _ _).2.1]
    rfl
  · intro cols s h
    simp only [ngDoCheckM, h, if_true]
    exact countAdded_map_fresh _

/-- Witness for `atMostOneAdded_invariant`: the initial state, a concrete
`startAddElement`, and a concrete pending added row being cleared. -/
theorem atMostOneAdded_invariant_witness :
    countAdded (initState Nat).dataStatus ≤ 1
    ∧ (startAddElement 5 id (initState Nat)).data = 5 :: (initState Nat).data
    ∧ (clearAddedEntry
        ({ data := [7], dataStatus := [(7, { editing := false, added := true })] }
          : SMTState Nat)).data = ([7] : List Nat).erase 7
    ∧ (clearAddedEntry
        ({ data := [7], dataStatus := [(7, { editing := false, added := true })] }
          : SMTState Nat)).dataStatus
        = assocDelete [(7, { editing := false, added := true })] 7
    ∧ countAdded (ngDoCheckM [[("a", 1)]] (initState Nat)).dataStatus = 0 := by
  have hclear := atMostOneAdded_invariant.2.2.1
    ({ data := [7], dataStatus := [(7, { editing := false, added := true })] } : SMTState Nat)
    7 { editing := false, added := true } [] [] rfl rfl (by simp) (by simp)
    (by simp) (by simp [keysOf])
  exact ⟨atMostOneAdded_invariant.1 (initState Nat) Relation.ReflTransGen.refl,
    (atMostOneAdded_invariant.2.1 5 id (initState Nat)).1,
    hclear.1, hclear.2.1,
    atMostOneAdded_invariant.2.2.2.2 [[("a", 1)]] (initState Nat) (by decide)⟩

end C5Block

theorem colDiffers_iff (o n : ColObj) :
    colDiffers o n = true ↔ ∃ kv ∈ o, colGet n kv.1 ≠ some kv.2 := by
  simp [colDiffers, List.any_eq_true]

theorem zipAny_exists (oldC newC : List ColObj) (hl : oldC.length = newC.length) :
    ((oldC.zip newC).any fun p => colDiffers p.1 p.2) = true
      ↔ ∃ i, i < oldC.length ∧ ∃ kv ∈ oldC.getD i [],
          colGet (newC.getD i []) kv.1 ≠ some kv.2 := by
  induction oldC generalizing newC with
  | nil => simp
  | cons o os ih =>
    cases newC with
    | nil => simp at hl
    | cons n ns =>
      have hl' : os.length = ns.length := by simpa using hl
      simp only [List.zip_cons_cons, List.any_cons, Bool.or_eq_true, colDiffers_iff, ih ns hl']
      constructor
      · rintro (⟨kv, hkv, hne⟩ | ⟨i, hi, kv, hkv, hne⟩)
        · exact ⟨0, by simp, kv, by simpa using hkv, by simpa using hne⟩
        · exact ⟨i + 1, by simpa using hi, kv, by simpa using hkv, by simpa using hne⟩
      · rintro ⟨i, hi, kv, hkv, hne⟩
        cases i with
        | zero => exact Or.inl ⟨kv, by simpa using hkv, by simpa using hne⟩
        | succ i =>
          exact Or.inr ⟨i, by simpa using hi, kv, by simpa using hkv, by simpa using hne⟩

theorem checkForDifferences_iff (oldC newC : List ColObj) :
    checkForDifferences oldC newC = true ↔ codeColumnsDiffer oldC newC := by
  unfold checkForDifferences codeColumnsDiffer
  by_cases hl : oldC.length = newC.length
  · rw [if_neg (by simpa using hl)]
    rw [zipAny_exists oldC newC hl]
    constructor
    · exact fun h => Or.inr h
    · rintro (h | h)
      · exact absurd hl h
      · exact h
  · rw [if_pos (by simpa using hl)]
    simp only [true_iff]
    exact Or.inl hl

theorem turnOffSorting_data (s : SMTState V) : (turnOffSorting s).data = s.data := by
  unfold turnOffSorting
  split <;> rfl

/-- C1 (amended): `ngDoCheck` rebuilds the data source if and only if
`checkForDifferences` detects a change, and `checkForDifferences` holds
exactly when the arrays have different lengths or some property of the
SAVED COPY at index `i` differs from the current column's value for it
(`codeColumnsDiffer`; a property present only on the current column is
never compared).  Without a detected difference `ngDoCheck` leaves the
whole state — data source, row-status map and form-control map included —
unchanged; with one it rebuilds the data source over the current data,
clears the form controls and saves the current columns as the new copy. -/
theorem dirtyCheck_rebuild_iff {V : Type} [DecidableEq V] [Inhabited V]
    (oldC newC cols : List ColObj) (s : SMTState V) :
    (checkForDifferences oldC newC = true ↔ codeColumnsDiffer oldC newC)
    ∧ (checkForDifferences s.oldColumns cols = false → ngDoCheckM cols s = s)
    ∧ (checkForDifferences s.oldColumns cols = true →
        (ngDoCheckM cols s).dataSource = some ((clearAddedEntry s).data, [])
        ∧ (ngDoCheckM cols s).formControls = []
        ∧ (ngDoCheckM cols s).oldColumns = cols) := by
  refine ⟨checkForDifferences_iff oldC newC, ?_, ?_⟩
  · intro h
    unfold ngDoCheckM
    rw [h]
    rfl
  · intro h
    unfold ngDoCheckM
    rw [h]
    refine ⟨?_, rfl, rfl⟩
    show (recreateDataSourceM (prepareForColChange s)).dataSource
        = some ((clearAddedEntry s).data, [])
    unfold recreateDataSourceM prepareForColChange
    rw [turnOffSorting_data]

/-- Witness for `dirtyCheck_rebuild_iff`: a one-column value change is
detected, and on the initial state (empty saved copy, empty current
columns) `ngDoCheck` changes nothing. -/
theorem dirtyCheck_rebuild_iff_witness :
    (checkForDifferences [[("a", 1)]] [[("a", 2)]] = true
      ↔ codeColumnsDiffer [[("a", 1)]] [[("a", 2)]])
    ∧ ngDoCheckM [] (initState Nat) = initState Nat :=
  ⟨(dirtyCheck_rebuild_iff [[("a", 1)]] [[("a", 2)]] [] (initState Nat)).1,
   (dirtyCheck_rebuild_iff [[("a", 1)]] [[("a", 2)]] [] (initState Nat)).2.1 (by decide)⟩

/-- C1 counterexample: the claim reads the dirty check as comparing the
properties of the CURRENT columns against the saved copy.  With the saved
copy `{a: 1}` and the current column mutated to `{a: 1, b: 2}`, the
current column has a property (`b`) whose value is not equal to the saved
copy's (absent) value — the claim's 'differs' holds — yet
`checkForDifferences` iterates only the saved copy's keys, sees no change,
and `ngDoCheck` does not rebuild: the state is returned unchanged. -/
theorem dirtyCheck_misses_added_property :
    claimColumnsDiffer [[("a", 1)]] [[("a", 1), ("b", 2)]]
    ∧ checkForDifferences [[("a", 1)]] [[("a", 1), ("b", 2)]] = false
    ∧ ngDoCheckM [[("a", 1), ("b", 2)]]
        ({ oldColumns := [[("a", 1)]] } : SMTState Nat)
      = ({ oldColumns := [[("a", 1)]] } : SMTState Nat) := by
  refine ⟨?_, by decide, by decide⟩
  unfold claimColumnsDiffer
  exact Or.inr ⟨0, by decide, ("b", 2), by decide, by decide⟩

theorem jsLowerCode_idem (n : Nat) : jsLowerCode (jsLowerCode n) = jsLowerCode n := by
  by_cases h : 65 ≤ n ∧ n ≤ 90
  · simp only [jsLowerCode, if_pos h]
    rw [if_neg (by omega)]
  · simp only [jsLowerCode, if_neg h]

theorem jsIsWS_lower (n : Nat) : jsIsWS (jsLowerCode n) = jsIsWS n := by
  unfold jsIsWS jsLowerCode
  by_cases h : 65 ≤ n ∧ n ≤ 90
  · rw [if_pos h]
    exact decide_eq_decide.mpr (by omega)
  · rw [if_neg h]

theorem jsLower_idem (s : Str) : jsLower (jsLower s) = jsLower s := by
  unfold jsLower
  rw [List.map_map]
  induction s with
  | nil => rfl
  | cons a t ih => simp only [List.map_cons, Function.comp, jsLowerCode_idem, ih]

theorem dropWhile_map_comm (f : Nat → Nat) (P : Nat → Bool)
    (h : ∀ a, P (f a) = P a) (l : List Nat) :
    List.dropWhile P (l.map f) = (List.dropWhile P l).map f := by
  induction l with
  | nil => rfl
  | cons a t ih =>
    simp only [List.map_cons, List.dropWhile_cons, h a]
    by_cases ha : P a = true
    · simp [ha, ih]
    · simp [ha]

theorem jsTrim_jsLower_comm (s : Str) : jsTrim (jsLower s) = jsLower (jsTrim s) := by
  show ((List.dropWhile jsIsWS (s.map jsLowerCode)).reverse.dropWhile jsIsWS).reverse
      = (((s.dropWhile jsIsWS).reverse.dropWhile jsIsWS).reverse).map jsLowerCode
  rw [dropWhile_map_comm _ _ jsIsWS_lower, ← List.map_reverse,
    dropWhile_map_comm _ _ jsIsWS_lower, ← List.map_reverse]

theorem dropWhile_idem (P : α → Bool) (l : List α) :
    List.dropWhile P (List.dropWhile P l) = List.dropWhile P l := by
  induction l with
  | nil => rfl
  | cons a t ih =>
    by_cases h : P a = true
    · simp [List.dropWhile_cons, h, ih]
    · simp [List.dropWhile_cons, h]

theorem dropWhile_head_false {α : Type} {P : α → Bool} {l : List α} {a : α} {t : List α}
    (h : List.dropWhile P l = a :: t) : P a = false := by
  induction l with
  | nil => simp at h
  | cons b u ih =>
    by_cases hb : P b = true
    · rw [List.dropWhile_cons, if_pos hb] at h
      exact ih h
    · rw [List.dropWhile_cons, if_neg hb] at h
      injection h with h1 h2
      subst h1
      simpa using hb

theorem dropWhile_exists_pre (P : α → Bool) (l : List α) :
    ∃ pre, l = pre ++ List.dropWhile P l := by
  induction l with
  | nil => exact ⟨[], rfl⟩
  | cons a t ih =>
    by_cases h : P a = true
    · obtain ⟨pre, hp⟩ := ih
      refine ⟨a :: pre, ?_⟩
      rw [List.dropWhile_cons, if_pos h, List.cons_append, ← hp]
    · refine ⟨[], ?_⟩
      rw [List.dropWhile_cons, if_neg h]
      rfl

theorem dropWhile_eq_self_of (P : α → Bool) (l : List α)
    (h : ∀ a t, l = a :: t → P a = false) : List.dropWhile P l = l := by
  cases l with
  | nil => rfl
  | cons a t => rw [List.dropWhile_cons, if_neg (by simp [h a t rfl])]

theorem jsTrim_idem (s : Str) : jsTrim (jsTrim s) = jsTrim s := by
  have hA : List.dropWhile jsIsWS (jsTrim s) = jsTrim s := by
    apply dropWhile_eq_self_of
    intro a t' ht
    have hm : List.dropWhile jsIsWS (List.dropWhile jsIsWS s).reverse = t'.reverse ++ [a] := by
      have h2 := congrArg List.reverse ht
      unfold jsTrim at h2
      rw [List.reverse_reverse] at h2
      rw [h2]
      simp
    obtain ⟨pre, hpre⟩ := dropWhile_exists_pre jsIsWS (List.dropWhile jsIsWS s).reverse
    rw [hm] at hpre
    have h3 := congrArg List.reverse hpre
    rw [List.reverse_reverse] at h3
    simp only [List.reverse_append, List.reverse_cons, List.reverse_nil, List.nil_append,
      List.reverse_reverse, List.cons_append, List.append_assoc] at h3
    exact dropWhile_head_false h3
  have hB : List.dropWhile jsIsWS (jsTrim s).reverse = (jsTrim s).reverse := by
    have hrev : (jsTrim s).reverse
        = List.dropWhile jsIsWS (List.dropWhile jsIsWS s).reverse := by
      unfold jsTrim
      rw [List.reverse_reverse]
    rw [hrev]
    exact dropWhile_idem _ _
  show ((List.dropWhile jsIsWS (jsTrim s)).reverse.dropWhile jsIsWS).reverse = jsTrim s
  rw [hA, hB, List.reverse_reverse]

theorem filter_normalize (v : Str) :
    jsTrim (jsLower (jsLower (jsTrim v))) = jsLower (jsTrim v) := by
  rw [jsLower_idem, jsTrim_jsLower_comm, jsTrim_idem]

theorem strStarts_iff {α : Type} [DecidableEq α] (s p : List α) :
    strStarts s p = true ↔ ∃ b, s = p ++ b := by
  induction p generalizing s with
  | nil =>
    constructor
    · intro _
      exact ⟨s, by simp⟩
    · intro _
      cases s <;> rfl
  | cons x p ih =>
    cases s with
    | nil => simp [strStarts]
    | cons a s' =>
      simp only [strStarts]
      by_cases hax : a = x
      · subst hax
        rw [if_pos rfl, ih]
        constructor
        · rintro ⟨b, hb⟩
          exact ⟨b, by rw [List.cons_append, hb]⟩
        · rintro ⟨b, hb⟩
          injection hb with h1 h2
          exact ⟨b, h2⟩
      · rw [if_neg hax]
        constructor
        · intro hf
          exact absurd hf (by simp)
        · rintro ⟨b, hb⟩
          injection hb with h1 h2
          exact absurd h1 hax

theorem jsContainsSub_iff {α : Type} [DecidableEq α] (s pat : List α) :
    jsContainsSub s pat = true ↔ ∃ a b, s = a ++ pat ++ b := by
  induction s with
  | nil =>
    simp only [jsContainsSub, strStarts_iff]
    constructor
    · rintro ⟨b, hb⟩
      exact ⟨[], b, by simpa using hb⟩
    · rintro ⟨a, b, h⟩
      have h' : a = [] ∧ pat = [] ∧ b = [] := by simpa using h.symm
      exact ⟨[], by simp [h'.2.1]⟩
  | cons c t ih =>
    simp only [jsContainsSub, Bool.or_eq_true, strStarts_iff, ih]
    constructor
    · rintro (⟨b, hb⟩ | ⟨a, b, h⟩)
      · exact ⟨[], b, by simpa using hb⟩
      · exact ⟨c :: a, b, by simp [h]⟩
    · rintro ⟨a, b, h⟩
      cases a with
      | nil => exact Or.inl ⟨b, by simpa using h⟩
      | cons a0 a' =>
        rw [List.cons_append, List.cons_append] at h
        injection h with h1 h2
        exact Or.inr ⟨a', b, by simpa using h2⟩

theorem concat_code_eq_spec {V : Type} [Inhabited V] (vToStr : V → Str)
    (cols : List (TableColumn V)) (cont : Cont V) :
    cols.foldl (fun acc c => acc ++ jsTrim (jsLower (getStringRepresentation vToStr c cont))) []
      = cols.foldl
          (fun acc c => acc ++ jsLower (jsTrim (getStringRepresentation vToStr c cont))) [] := by
  suffices h : ∀ acc : Str,
      cols.foldl (fun acc c => acc ++ jsTrim (jsLower (getStringRepresentation vToStr c cont))) acc
        = cols.foldl
            (fun acc c => acc ++ jsLower (jsTrim (getStringRepresentation vToStr c cont))) acc by
    exact h []
  induction cols with
  | nil => intro acc; rfl
  | cons c cs ih =>
    intro acc
    simp only [List.foldl_cons]
    rw [jsTrim_jsLower_comm]
    exact ih _

/-- C8: `applyFilter(v)` stores `v` trimmed and lowercased as the data
source's filter string, and the installed filter predicate accepts a row
exactly when the concatenation, over all configured columns, of each
column's trimmed, lowercased string representation contains that trimmed,
lowercased filter string as a substring. -/
theorem applyFilter_matches {V : Type} [DecidableEq V] [Inhabited V] (vToStr : V → Str)
    (cols : List (TableColumn V)) (cont : Cont V) (v : Str) (s : SMTState V)
    (d : List Nat) (f0 : Str) (hds : s.dataSource = some (d, f0)) :
    (applyFilterM v s).dataSource = some (d, jsLower (jsTrim v))
    ∧ (filterPredicate vToStr cols cont (jsLower (jsTrim v)) = true
        ↔ specRowMatches vToStr cols cont v) := by
  constructor
  · simp [applyFilterM, hds]
  · unfold filterPredicate specRowMatches
    rw [filter_normalize, concat_code_eq_spec]
    exact jsContainsSub_iff _ _

/-- Witness for `applyFilter_matches`: one column whose cell `" H"` is
trimmed and lowercased to `"h"`, matched by the filter input `" H "`. -/
theorem applyFilter_matches_witness :
    (applyFilterM [32, 72] ({ dataSource := some ([], []) } : SMTState Nat)).dataSource
        = some ([], jsLower (jsTrim [32, 72]))
    ∧ (filterPredicate (fun n => [n]) [{ property := "x" }] [("x", (72 : Nat))]
          (jsLower (jsTrim [32, 72])) = true
        ↔ specRowMatches (fun n => [n]) [{ property := "x" }] [("x", (72 : Nat))]
            [32, 72]) :=
  applyFilter_matches (fun n => [n]) [{ property := "x" }] [("x", (72 : Nat))]
    [32, 72] ({ dataSource := some ([], []) } : SMTState Nat) [] [] rfl

end SMC

/-- C9: the fluent builder of `AbstractFormField`.  Each setter returns the
receiver itself, i.e. the same form field with only its own field updated,
and `withValidators` normalises a single validator `f` to the one-element
array `[f]`, so `withValidators(f)` and `withValidators([f])` leave the
form field in the same state. -/
theorem abstractFormField_builder {VFn I A E : Type}
    (ff : SMF.AbstractFormField VFn I A E) (f : VFn) (l : List VFn) (g : I) (a : A)
    (e : List E) (p hnt : String) :
    SMF.withValidators ff (.single f) = SMF.withValidators ff (.array [f])
    ∧ SMF.withValidators ff (.array l) = { ff with validators := l }
    ∧ SMF.withInit ff g = { ff with init := some g }
    ∧ SMF.withApply ff a = { ff with apply := some a }
    ∧ SMF.withErrors ff e = { ff with errors := e }
    ∧ SMF.withPlaceholder ff p = { ff with placeholder := p }
    ∧ SMF.withHint ff hnt = { ff with hint := hnt } :=
  ⟨rfl, rfl, rfl, rfl, rfl, rfl, rfl⟩

/-- C10: `ngOnInit` throws exactly when `addable` is set without a `create`
function, and whenever it returns it returns the state it was given. -/
theorem ngOnInit_throws_iff {V : Type} (addable : Bool)
    (create : Option (Unit → SMC.Cont V)) (s : SMC.SMTState V) :
    ((∃ e, SMC.ngOnInitM addable create s = .error e) ↔ addable = true ∧ create = none)
    ∧ ∀ s', SMC.ngOnInitM addable create s = .ok s' → s' = s := by
  constructor
  · cases addable <;> cases create <;> simp [SMC.ngOnInitM]
  · intro s' h
    cases addable <;> cases create <;> simp [SMC.ngOnInitM] at h <;> exact h.symm

/-- Witness for `ngOnInit_throws_iff`: with adding enabled and no create
function the hook throws; with adding disabled it returns the given state. -/
theorem ngOnInit_throws_iff_witness :
    ((∃ e, SMC.ngOnInitM true (none : Option (Unit → SMC.Cont Nat)) (SMC.initState Nat) = .error e)
      ↔ true = true ∧ (none : Option (Unit → SMC.Cont Nat)) = none)
    ∧ SMC.initState Nat = SMC.initState Nat :=
  ⟨(ngOnInit_throws_iff true none (SMC.initState Nat)).1,
   (ngOnInit_throws_iff false (none : Option (Unit → SMC.Cont Nat)) (SMC.initState Nat)).2
     (SMC.initState Nat) rfl⟩

namespace JsHeap

theorem find_alloc_old {h : Heap} {r : Nat} {o : JsObj}
    (hr : h.find r = some o) (onew : JsObj) : (h.alloc onew).1.find r = some o := by
  unfold Heap.alloc Heap.find at *
  exact SMC.assocGet_append_some hr _

theorem next_not_mem_keys {h : Heap} (hwf : h.wf) : h.next ∉ SMC.keysOf h.mem := by
  intro hmem
  obtain ⟨p, hp, hk⟩ := List.mem_map.mp hmem
  have := hwf p hp
  omega

theorem find_alloc_self {h : Heap} (hwf : h.wf) (onew : JsObj) :
    (h.alloc onew).1.find h.next = some onew := by
  unfold Heap.alloc Heap.find
  rw [SMC.assocGet_append_none (SMC.assocGet_eq_none_of_not_mem (next_not_mem_keys hwf))]
  simp [SMC.assocGet]

theorem wf_alloc {h : Heap} (hwf : h.wf) (o : JsObj) : (h.alloc o).1.wf := by
  unfold Heap.alloc Heap.wf at *
  intro p hp
  rcases List.mem_append.mp hp with hp | hp
  · exact Nat.lt_trans (hwf p hp) (Nat.lt_succ_self _)
  · rw [List.mem_singleton.mp hp]
    exact Nat.lt_succ_self _

/-- `deepCopy` only grows the heap: every object reachable before the copy
is still found unchanged afterwards (joint statement for `deepCopy` and
its property loop `copyProps`). -/
theorem copy_extends (fuel : Nat) :
    (∀ (h : Heap) (v : JsVal) (h' : Heap) (v' : JsVal),
        deepCopy fuel h v = some (h', v') → h.wf →
          h'.wf ∧ h.next ≤ h'.next ∧ ∀ r o, h.find r = some o → h'.find r = some o)
    ∧ (∀ (ps : List (String × JsVal)) (h h' : Heap) (ps' : List (String × JsVal)),
        copyProps fuel h ps = some (h', ps') → h.wf →
          h'.wf ∧ h.next ≤ h'.next ∧ ∀ r o, h.find r = some o → h'.find r = some o) := by
  induction fuel with
  | zero =>
    constructor
    · intro h v h' v' hd _
      simp [deepCopy] at hd
    · intro ps h h' ps' hc hwf
      cases ps with
      | nil =>
        simp only [copyProps, Option.some.injEq] at hc
        obtain ⟨rfl, rfl⟩ := Prod.mk.injEq _ _ _ _ ▸ hc
        exact ⟨hwf, Nat.le_refl _, fun _ _ hh => hh⟩
      | cons kv ps =>
        obtain ⟨k, v⟩ := kv
        simp [copyProps, deepCopy] at hc
  | succ fuel ih =>
    have A : ∀ (h : Heap) (v : JsVal) (h' : Heap) (v' : JsVal),
        deepCopy (fuel + 1) h v = some (h', v') → h.wf →
          h'.wf ∧ h.next ≤ h'.next ∧ ∀ r o, h.find r = some o → h'.find r = some o := by
      intro h v h' v' hd hwf
      cases v with
      | prim t =>
        simp only [deepCopy, Option.some.injEq] at hd
        obtain ⟨rfl, rfl⟩ := Prod.mk.injEq _ _ _ _ ▸ hd
        exact ⟨hwf, Nat.le_refl _, fun _ _ hh => hh⟩
      | null =>
        simp only [deepCopy, Option.some.injEq] at hd
        obtain ⟨rfl, rfl⟩ := Prod.mk.injEq _ _ _ _ ▸ hd
        exact ⟨hwf, Nat.le_refl _, fun _ _ hh => hh⟩
      | undef =>
        simp only [deepCopy, Option.some.injEq] at hd
        obtain ⟨rfl, rfl⟩ := Prod.mk.injEq _ _ _ _ ▸ hd
        exact ⟨hwf, Nat.le_refl _, fun _ _ hh => hh⟩
      | ref r =>
        simp only [deepCopy] at hd
        cases hfind : h.find r with
        | none => rw [hfind] at hd; simp at hd
        | some o =>
          rw [hfind] at hd
          cases o with
          | date t =>
            simp only [Heap.alloc, Option.some.injEq] at hd
            obtain ⟨rfl, rfl⟩ := Prod.mk.injEq _ _ _ _ ▸ hd
            exact ⟨wf_alloc hwf _, Nat.le_succ _,
              fun r o hh => find_alloc_old hh _⟩
          | arr es =>
            simp only [Heap.alloc, Option.some.injEq] at hd
            obtain ⟨rfl, rfl⟩ := Prod.mk.injEq _ _ _ _ ▸ hd
            exact ⟨wf_alloc hwf _, Nat.le_succ _,
              fun r o hh => find_alloc_old hh _⟩
          | obj ps =>
            cases hcp : copyProps fuel h ps with
            | none => simp [hcp] at hd
            | some q =>
              obtain ⟨h1, ps1⟩ := q
              simp only [hcp, Heap.alloc, Option.some.injEq] at hd
              obtain ⟨rfl, rfl⟩ := Prod.mk.injEq _ _ _ _ ▸ hd
              obtain ⟨hw1, hn1, hf1⟩ := ih.2 ps h h1 ps1 hcp hwf
              exact ⟨wf_alloc hw1 _, Nat.le_trans hn1 (Nat.le_succ _),
                fun r o hh => find_alloc_old (hf1 r o hh) _⟩
    have B : ∀ (ps : List (String × JsVal)) (h h' : Heap) (ps' : List (String × JsVal)),
        copyProps (fuel + 1) h ps = some (h', ps') → h.wf →
          h'.wf ∧ h.next ≤ h'.next ∧ ∀ r o, h.find r = some o → h'.find r = some o := by
      intro ps
      induction ps with
      | nil =>
        intro h h' ps' hc hwf
        simp only [copyProps, Option.some.injEq] at hc
        obtain ⟨rfl, rfl⟩ := Prod.mk.injEq _ _ _ _ ▸ hc
        exact ⟨hwf, Nat.le_refl _, fun _ _ hh => hh⟩
      | cons kv ps ihp =>
        intro h h' ps' hc hwf
        obtain ⟨k, v⟩ := kv
        simp only [copyProps] at hc
        cases hd : deepCopy (fuel + 1) h v with
        | none => simp [hd] at hc
        | some p =>
          obtain ⟨h1, v1⟩ := p
          simp only [hd] at hc
          cases hcq : copyProps (fuel + 1) h1 ps with
          | none => simp [hcq] at hc
          | some q =>
            obtain ⟨h2, ps2⟩ := q
            simp only [hcq, Option.some.injEq] at hc
            obtain ⟨rfl, rfl⟩ := Prod.mk.injEq _ _ _ _ ▸ hc
            obtain ⟨hw1, hn1, hf1⟩ := A h v h1 v1 hd hwf
            obtain ⟨hw2, hn2, hf2⟩ := ihp h1 h2 ps2 hcq hw1
            exact ⟨hw2, Nat.le_trans hn1 hn2, fun r o hh => hf2 r o (hf1 r o hh)⟩
    exact ⟨A, B⟩

/-- The root `deepCopy` returns for an object value is a freshly allocated
reference. -/
theorem deepCopy_ref_fresh {fuel : Nat} {h : Heap} {r : Nat} {h' : Heap} {v' : JsVal}
    (hwf : h.wf) (hd : deepCopy fuel h (.ref r) = some (h', v')) :
    ∃ r', v' = .ref r' ∧ h.next ≤ r' := by
  cases fuel with
  | zero => simp [deepCopy] at hd
  | succ fuel =>
    simp only [deepCopy] at hd
    cases hfind : h.find r with
    | none => rw [hfind] at hd; simp at hd
    | some o =>
      rw [hfind] at hd
      cases o with
      | date t =>
        simp only [Heap.alloc, Option.some.injEq] at hd
        obtain ⟨rfl, rfl⟩ := Prod.mk.injEq _ _ _ _ ▸ hd
        exact ⟨h.next, rfl, Nat.le_refl _⟩
      | arr es =>
        simp only [Heap.alloc, Option.some.injEq] at hd
        obtain ⟨rfl, rfl⟩ := Prod.mk.injEq _ _ _ _ ▸ hd
        exact ⟨h.next, rfl, Nat.le_refl _⟩
      | obj ps =>
        cases hcp : copyProps fuel h ps with
        | none => simp [hcp] at hd
        | some q =>
          obtain ⟨h1, ps1⟩ := q
          simp only [hcp, Heap.alloc, Option.some.injEq] at hd
          obtain ⟨rfl, rfl⟩ := Prod.mk.injEq _ _ _ _ ▸ hd
          exact ⟨h1.next, rfl, ((copy_extends fuel).2 ps h h1 ps1 hcp hwf).2.1⟩

theorem setProp_find_ne (h : Heap) (r' : Nat) (k : String) (v : JsVal) {r : Nat}
    (hne : r ≠ r') : (setProp h r' k v).find r = h.find r := by
  unfold setProp
  cases hf : h.find r' with
  | none => rfl
  | some o =>
    cases o with
    | date t => rfl
    | arr es => rfl
    | obj ps =>
      show SMC.assocGet (SMC.assocSet h.mem r' _) r = _
      exact SMC.assocGet_set_ne _ _ hne

theorem applyWrites_find_ne (h : Heap) (r' : Nat) (ws : List (String × JsVal)) {r : Nat}
    (hne : r ≠ r') : (applyWrites h r' ws).find r = h.find r := by
  induction ws generalizing h with
  | nil => rfl
  | cons w ws ih =>
    show (applyWrites (setProp h r' w.1 w.2) r' ws).find r = h.find r
    rw [ih (setProp h r' w.1 w.2), setProp_find_ne h r' w.1 w.2 hne]

end JsHeap

namespace JsHeap

/-- C6: `saveElement` applies the new form values to `deepCopy(oldElement)`
and emits that copy, never touching the original.  In the heap model: the
copy of an object value is a fresh reference distinct from the original;
after ANY sequence of property assignments to the copy (the loop
`element[tcol.property] = ...`), the original object — and every other
object that existed before the copy — is still found unchanged; a `Date`
original yields a copy with the same time value and an array original a
new array with the same elements (`obj.map(ele => ele)`). -/
theorem deepCopy_preserves_original (fuel : Nat) (h : Heap) (r : Nat) (o : JsObj)
    (h' : Heap) (v' : JsVal) (hwf : h.wf) (hr : h.find r = some o)
    (hd : deepCopy fuel h (.ref r) = some (h', v')) :
    ∃ r', v' = .ref r' ∧ r' ≠ r
      ∧ (∀ ws, (applyWrites h' r' ws).find r = some o)
      ∧ (∀ rr oo, h.find rr = some oo → ∀ ws, (applyWrites h' r' ws).find rr = some oo)
      ∧ (∀ t, o = .date t → h'.find r' = some (.date t))
      ∧ (∀ es, o = .arr es → h'.find r' = some (.arr es)) := by
  obtain ⟨r', rfl, hge⟩ := deepCopy_ref_fresh hwf hd
  have hext := (copy_extends fuel).1 h (.ref r) h' (.ref r') hd hwf
  have hrlt : r < h.next := hwf (r, o) (SMC.assocGet_mem hr)
  have hner : r' ≠ r := by omega
  have hpres : ∀ rr oo, h.find rr = some oo →
      ∀ ws, (applyWrites h' r' ws).find rr = some oo := by
    intro rr oo hfind ws
    have hrrlt : rr < h.next := hwf (rr, oo) (SMC.assocGet_mem hfind)
    rw [applyWrites_find_ne h' r' ws (by omega)]
    exact hext.2.2 rr oo hfind
  refine ⟨r', rfl, hner, fun ws => hpres r o hr ws, hpres, ?_, ?_⟩
  · intro t hdt
    subst hdt
    cases fuel with
    | zero => simp [deepCopy] at hd
    | succ fuel =>
      simp only [deepCopy, hr, Heap.alloc, Option.some.injEq] at hd
      obtain ⟨rfl, hv⟩ := Prod.mk.injEq _ _ _ _ ▸ hd
      have hv' : r' = h.next := by
        cases hv
        rfl
      rw [hv']
      exact find_alloc_self hwf _
  · intro es hde
    subst hde
    cases fuel with
    | zero => simp [deepCopy] at hd
    | succ fuel =>
      simp only [deepCopy, hr, Heap.alloc, Option.some.injEq] at hd
      obtain ⟨rfl, hv⟩ := Prod.mk.injEq _ _ _ _ ▸ hd
      have hv' : r' = h.next := by
        cases hv
        rfl
      rw [hv']
      exact find_alloc_self hwf _

/-- Witness for `deepCopy_preserves_original`: a one-object heap whose
object `{x: 5}` is deep-copied with fuel 2. -/
theorem deepCopy_preserves_original_witness :
    ∃ r', (JsVal.ref 1) = JsVal.ref r' ∧ r' ≠ 0
      ∧ (∀ ws, (applyWrites
            { next := 2, mem := [(0, .obj [("x", .prim 5)]), (1, .obj [("x", .prim 5)])] }
            r' ws).find 0 = some (.obj [("x", .prim 5)]))
      ∧ (∀ rr oo,
          ({ next := 1, mem := [(0, .obj [("x", .prim 5)])] } : Heap).find rr = some oo →
          ∀ ws, (applyWrites
            { next := 2, mem := [(0, .obj [("x", .prim 5)]), (1, .obj [("x", .prim 5)])] }
            r' ws).find rr = some oo)
      ∧ (∀ t, (JsObj.obj [("x", .prim 5)]) = .date t →
          ({ next := 2, mem := [(0, .obj [("x", .prim 5)]), (1, .obj [("x", .prim 5)])] }
            : Heap).find r' = some (.date t))
      ∧ (∀ es, (JsObj.obj [("x", .prim 5)]) = .arr es →
          ({ next := 2, mem := [(0, .obj [("x", .prim 5)]), (1, .obj [("x", .prim 5)])] }
            : Heap).find r' = some (.arr es)) :=
  deepCopy_preserves_original 2 { next := 1, mem := [(0, .obj [("x", .prim 5)])] }
    0 (.obj [("x", .prim 5)])
    { next := 2, mem := [(0, .obj [("x", .prim 5)]), (1, .obj [("x", .prim 5)])] }
    (.ref 1) (by unfold Heap.wf; decide) rfl
    (by simp [deepCopy, copyProps, Heap.find, Heap.alloc, SMC.assocGet])

end JsHeap
